import Mathlib

/-!
Verification of the curvlinops fragment: the general utilities
`split_list` and `allclose_report` (translated from
`curvlinops/utils.py`), and a model of the implicit curvature linear
operator (`HessianLinearOperator`), whose implementation is not part of
the provided sources and is therefore modelled from the specification.

Numeric values are embedded as rational numbers: all exact arithmetic
facts about the code's computation structure are stated over `ℚ`.
-/

set_option maxHeartbeats 1000000

namespace Curvlinops

/-! ### Rational vectors as lists -/

/-- Entry `i` of a vector, with `0` for an out-of-range index. -/
def vget (v : List ℚ) (i : Nat) : ℚ := v.getD i 0

/-- Elementwise addition of two vectors. -/
def vadd (u w : List ℚ) : List ℚ := List.zipWith (· + ·) u w

/-- Scalar multiple of a vector. -/
def smul (a : ℚ) (u : List ℚ) : List ℚ := u.map (fun x => a * x)

/-- The zero vector of length `n`. -/
def zeroVec (n : Nat) : List ℚ := List.replicate n 0

/-- The `j`-th standard basis vector of dimension `d`. -/
def basisVec (d j : Nat) : List ℚ := (List.range d).map (fun i => if i = j then 1 else 0)

/-- Dot product of two vectors. -/
def dot (u w : List ℚ) : ℚ := (List.zipWith (· * ·) u w).sum

/-- Sum of a list of vectors of common length `d`. -/
def sumVecs (d : Nat) (L : List (List ℚ)) : List ℚ := L.foldr vadd (zeroVec d)

/-- Sum of `g 0 + g 1 + ... + g (n-1)`. -/
def sumIdx (n : Nat) (g : Nat → ℚ) : ℚ := ((List.range n).map g).sum

/-! ### Python slicing

`split_list` slices its input with Python's `x[i:j]` where the
boundaries come from `numpy.cumsum` over the (possibly negative)
requested sizes, so the embedding reproduces Python slice semantics:
a negative bound counts from the end of the list, and bounds are
clamped into `[0, len(x)]`. -/

/-- The effective Python slice bound: `max 0 (n + i)` for negative `i`,
otherwise `min i n`. -/
def pyBound (n : Nat) (i : Int) : Nat := if i < 0 then (i + n).toNat else min i.toNat n

/-- Python's `x[i:j]` for integer bounds `i`, `j`. -/
def pySlice (x : List α) (i j : Int) : List α :=
  (x.drop (pyBound x.length i)).take (pyBound x.length j - pyBound x.length i)

/-! ### `split_list` (curvlinops/utils.py)

```python
def split_list(x: List, sizes: List[int]) -> List[List]:
    if len(x) != sum(sizes):
        raise ValueError(
            f"List to be split has length {len(x)}, but requested sub-list with a total"
            + f" of {sum(sizes)} entries."
        )
    boundaries = cumsum([0] + sizes)
    return [x[boundaries[i] : boundaries[i + 1]] for i in range(len(sizes))]
```

The `ValueError` is embedded as the `Except.error` branch carrying the
message string.  `boundaries[i] = cumsum([0] + sizes)[i]` is the sum of
the first `i` sizes, written `(sizes.take i).sum` below. -/

/-- Translation of `split_list` from `curvlinops/utils.py`. -/
def split_list (x : List α) (sizes : List Int) : Except String (List (List α)) :=
  if (x.length : Int) ≠ sizes.sum then
    .error ("List to be split has length " ++ toString x.length
      ++ ", but requested sub-list with a total of " ++ toString sizes.sum ++ " entries.")
  else
    .ok ((List.range sizes.length).map
      (fun i => pySlice x ((sizes.take i).sum) ((sizes.take (i + 1)).sum)))

/-- The contiguous in-order partition of a list into chunks of the given
sizes (the reference partition the specification describes). -/
def chunksOf : List α → List Nat → List (List α)
  | _, [] => []
  | l, n :: ns => l.take n :: chunksOf (l.drop n) ns

/-- The property claimed of `split_list`'s result: a partition of `x`
(in order, contiguous, non-overlapping) in which sub-list `i` has
exactly `sizes[i]` entries. -/
def IsSizedPartition (x : List α) (sizes : List Int) (r : List (List α)) : Prop :=
  r.flatten = x ∧ r.length = sizes.length ∧
    ∀ i, i < r.length → ((r.getD i []).length : Int) = sizes.getD i 0

instance (x : List α) (sizes : List Int) (r : List (List α)) [DecidableEq α] :
    Decidable (IsSizedPartition x sizes r) := by
  unfold IsSizedPartition; infer_instance

/-! ### `allclose_report` (curvlinops/utils.py)

```python
def allclose_report(tensor1, tensor2, rtol, atol) -> bool:
    close = tensor1.allclose(tensor2, rtol=rtol, atol=atol)
    if not close:
        nonclose_idx = tensor1.isclose(tensor2, rtol=rtol, atol=atol).logical_not_()
        for idx, t1, t2 in zip(nonclose_idx.argwhere(), tensor1[nonclose_idx].flatten(),
                               tensor2[nonclose_idx].flatten()):
            print(f"at index {idx}: {t1:.5e} ≠ {t2:.5e}, ratio: {t1 / t2:.5e}")
    return close
```

Tensors are embedded as flat lists of rationals; `torch.isclose` of
entries `a`, `b` is `|a - b| ≤ atol + rtol * |b|`.  The printed report
is embedded as returned data: the list of
`(index, entry1, entry2, entry1 / entry2)` for the non-close indices,
in index order (the order `argwhere` yields). -/

/-- One entry of `torch.isclose`: `|a - b| ≤ atol + rtol * |b|`. -/
def isCloseB (rtol atol a b : ℚ) : Bool := decide (|a - b| ≤ atol + rtol * |b|)

/-- The `torch.allclose` flag on equally shaped tensors: all entries close. -/
def allclose (t1 t2 : List ℚ) (rtol atol : ℚ) : Bool :=
  (List.zipWith (fun a b => isCloseB rtol atol a b) t1 t2).all (fun x => x)

/-- The indices of the non-close entries (`argwhere` of the negated
`isclose` mask), in increasing order. -/
def notcloseIndices (t1 t2 : List ℚ) (rtol atol : ℚ) : List Nat :=
  (List.range t1.length).filter (fun i => !(isCloseB rtol atol (vget t1 i) (vget t2 i)))

/-- Translation of `allclose_report` from `curvlinops/utils.py`: the
returned flag together with the reported divergences. -/
def allclose_report (t1 t2 : List ℚ) (rtol atol : ℚ) :
    Bool × List (Nat × ℚ × ℚ × ℚ) :=
  let close := allclose t1 t2 rtol atol
  (close,
    if close then []
    else (notcloseIndices t1 t2 rtol atol).map
      (fun i => (i, vget t1 i, vget t2 i, vget t1 i / vget t2 i)))

/-! ### Implicit curvature operator

The operator implementation (`curvlinops/hessian.py` and its base
class) is not part of the provided sources — only its tests are — so
the definitions below are modelled from the specification (sections
2-4, 4.1-4.4).  Batches, parameters, model and loss are opaque: a
batch is a value of an abstract type `β` together with the shape of
its input (array-like with a leading dimension, or mapping-like), a
parameter is a value of an abstract type `P` together with its
flattened dimension, and the curvature kernel (the external
automatic-differentiation collaborator, with the model and loss
already bound into it) maps a batch, a parameter subset and a vector
over that subset to a vector over that subset. -/

/-- Modelled from the spec: the shape of one batch's input, used by the
default batch-size resolver ("array-like or mapping-like"). -/
inductive InputKind where
  | arrayLike (leadingDim : Nat)
  | mappingLike
deriving DecidableEq

/-- Modelled from the spec: the error taxonomy of section 7
(`ConfigurationError` for a missing resolver on structured batches,
`ValueError`-class for magnitude mismatches). -/
inductive OperatorError where
  | configuration (msg : String)
  | valueError (msg : String)
deriving DecidableEq

/-- Modelled from the spec: the dtype metadata the operator exposes. -/
inductive DType where
  | float32
  | float64
deriving DecidableEq

/-- Modelled from the spec: `HessianLinearOperator` (not under `src/`;
see `curvlinops/hessian.py`).  It owns the data stream, the parameter
sequence with the per-parameter flattened dimensions, the curvature
kernel, the batch-size resolver, the optional input/output block
partitions (a single block covering everything when none was given)
and the dtype metadata. -/
structure HessianLinearOperator (β P : Type) where
  data : List β
  params : List P
  dimOf : P → Nat
  kernel : β → List P → List ℚ → List ℚ
  batchSizeOf : β → Nat
  inBlocks : List Nat
  outBlocks : List Nat
  dtype : DType

/-- Total flattened dimension of a parameter subset. -/
def dimsum (dimOf : P → Nat) (ps : List P) : Nat := (ps.map dimOf).sum

/-- Modelled from the spec: the sum over the data stream of a per-batch
vector contribution of length `d`. -/
def sumOverData (data : List β) (f : β → List ℚ) (d : Nat) : List ℚ :=
  sumVecs d (data.map f)

/-- Modelled from the spec: the block-diagonal matrix-vector product.
For each block of parameters, the corresponding sub-vector of the
input is decomposed off, the kernel contribution of every batch on
that block is summed over the data stream, and the per-block results
are concatenated in block order. -/
def matvecBlocks (data : List β) (dimOf : P → Nat)
    (K : β → List P → List ℚ → List ℚ) : List (List P) → List ℚ → List ℚ
  | [], _ => []
  | ps :: rest, v =>
      sumOverData data (fun b => K b ps (v.take (dimsum dimOf ps))) (dimsum dimOf ps)
        ++ matvecBlocks data dimOf K rest (v.drop (dimsum dimOf ps))

/-- Modelled from the spec: the per-block data-stream accumulation of
`matmat`, where the kernel is applied to a whole stack of columns
(`V : Nat → List ℚ` is the stack, column by column) before batches are
accumulated at matrix level. -/
def sumOverDataMat (data : List β) (f : β → Nat → List ℚ) (d : Nat) :
    Nat → List ℚ :=
  data.foldr (fun b acc => fun j => vadd (f b j) (acc j)) (fun _ => zeroVec d)

/-- Modelled from the spec: the block-diagonal matrix-matrix product on
a stack of columns. -/
def matmatBlocks (data : List β) (dimOf : P → Nat)
    (K : β → List P → List ℚ → List ℚ) :
    List (List P) → (Nat → List ℚ) → Nat → List ℚ
  | [], _, _ => []
  | ps :: rest, V, j =>
      sumOverDataMat data (fun b j' => K b ps ((V j').take (dimsum dimOf ps)))
          (dimsum dimOf ps) j
        ++ matmatBlocks data dimOf K rest (fun j' => (V j').drop (dimsum dimOf ps)) j

/-- The flattened input dimension of the operator. -/
def HessianLinearOperator.inputDim (op : HessianLinearOperator β P) : Nat :=
  dimsum op.dimOf op.params

/-- Modelled from the spec: the operator's `(output_dim, input_dim)`
shape metadata; the curvature matrix is square. -/
def HessianLinearOperator.shape (op : HessianLinearOperator β P) : Nat × Nat :=
  (op.inputDim, op.inputDim)

/-- Modelled from the spec: `matvec` fans out over the input block
partition of the parameter sequence and over the data stream. -/
def HessianLinearOperator.matvec (op : HessianLinearOperator β P) (v : List ℚ) :
    List ℚ :=
  matvecBlocks op.data op.dimOf op.kernel (chunksOf op.params op.inBlocks) v

/-- Modelled from the spec: `matmat` on a stack of columns. -/
def HessianLinearOperator.matmat (op : HessianLinearOperator β P)
    (V : Nat → List ℚ) : Nat → List ℚ :=
  fun j => matmatBlocks op.data op.dimOf op.kernel (chunksOf op.params op.inBlocks) V j

/-- The matrix entry `(i, j)` the implicit operator represents, read
off by multiplying with a standard basis vector. -/
def HessianLinearOperator.entry (op : HessianLinearOperator β P) (i j : Nat) : ℚ :=
  vget (op.matvec (basisVec op.inputDim j)) i

/-- The transpose of a linear map on dimension-`d` vectors, represented
through its action on the standard basis. -/
def transposeFn (d : Nat) (f : List ℚ → List ℚ) (v : List ℚ) : List ℚ :=
  (List.range d).map (fun j => dot (f (basisVec d j)) v)

/-- Modelled from the spec: `adjoint()` is the transpose view of the
operator sharing the data stream, parameters and kernel state of the
original, with the semantic roles of the input and output block
partitions swapped. -/
def HessianLinearOperator.adjoint (op : HessianLinearOperator β P) :
    HessianLinearOperator β P :=
  { op with
    kernel := fun b ps => transposeFn (dimsum op.dimOf ps) (op.kernel b ps)
    inBlocks := op.outBlocks
    outBlocks := op.inBlocks }

/-- Modelled from the spec: the default batch-size resolver infers the
size from the leading dimension of an array-like input and fails with
a `ConfigurationError` on a mapping-like input. -/
def defaultBatchSize (kindOf : β → InputKind) (b : β) : Except OperatorError Nat :=
  match kindOf b with
  | .arrayLike n => .ok n
  | .mappingLike =>
      .error (.configuration
        "batch size cannot be inferred from a mapping-like input; supply batch_size_fn")

/-- Whether a batch's input is mapping-like. -/
def isMappingLike (kindOf : β → InputKind) (b : β) : Bool :=
  match kindOf b with
  | .mappingLike => true
  | .arrayLike _ => false

/-- Modelled from the spec: the validating constructor
`Operator(model, loss_fn, parameters, data_stream, batch_size_fn=None,
in_blocks=None, out_blocks=None)`.  Block sizes are validated against
the parameter count (`ValueError`-class, reporting both magnitudes);
with no explicit resolver, mapping-like batches fail with a
`ConfigurationError`.  Absent partitions default to a single block
covering every parameter. -/
def construct (data : List β) (kindOf : β → InputKind) (params : List P)
    (dimOf : P → Nat) (K : β → List P → List ℚ → List ℚ)
    (batch_size_fn : Option (β → Nat)) (in_blocks out_blocks : Option (List Nat))
    (dt : DType) : Except OperatorError (HessianLinearOperator β P) :=
  let ib := in_blocks.getD [params.length]
  let ob := out_blocks.getD [params.length]
  if ib.sum ≠ params.length then
    .error (.valueError ("in_blocks sum to " ++ toString ib.sum
      ++ " but there are " ++ toString params.length ++ " parameters"))
  else if ob.sum ≠ params.length then
    .error (.valueError ("out_blocks sum to " ++ toString ob.sum
      ++ " but there are " ++ toString params.length ++ " parameters"))
  else if batch_size_fn.isNone && data.any (isMappingLike kindOf) then
    .error (.configuration
      "batch size cannot be inferred from a mapping-like input; supply batch_size_fn")
  else
    .ok
      { data := data
        params := params
        dimOf := dimOf
        kernel := K
        batchSizeOf := fun b =>
          match batch_size_fn with
          | some f => f b
          | none => match kindOf b with | .arrayLike n => n | .mappingLike => 0
        inBlocks := ib
        outBlocks := ob
        dtype := dt }

/-- Modelled from the spec: the generic array-library linear operator
(the SciPy-protocol object `to_scipy` produces), exposing shape, dtype
and a matvec on generic arrays of type `γ`. -/
structure SciPyLinearOperator (γ : Type) where
  shape : Nat × Nat
  dtype : DType
  matvecS : γ → γ

/-- Modelled from the spec: the `ArrayFrontendBridge` / `to_scipy`
conversion (not under `src/`).  The generic operator keeps the shape
and dtype of the wrapped operator and delegates `matvec` after
converting the generic input to the native representation, converting
the result back on return. -/
def HessianLinearOperator.to_scipy (op : HessianLinearOperator β P)
    (toNative : γ → List ℚ) (toGeneric : List ℚ → γ) : SciPyLinearOperator γ :=
  { shape := op.shape
    dtype := op.dtype
    matvecS := fun x => toGeneric (op.matvec (toNative x)) }

/-- The independently constructed operator restricted to the first `k`
parameters (a single block covering them, as construction without
partitions yields). -/
def subOperatorTake (op : HessianLinearOperator β P) (k : Nat) :
    HessianLinearOperator β P :=
  { op with
    params := op.params.take k
    inBlocks := [(op.params.take k).length]
    outBlocks := [(op.params.take k).length] }

/-- The independently constructed operator restricted to the
parameters after the first `k`. -/
def subOperatorDrop (op : HessianLinearOperator β P) (k : Nat) :
    HessianLinearOperator β P :=
  { op with
    params := op.params.drop k
    inBlocks := [(op.params.drop k).length]
    outBlocks := [(op.params.drop k).length] }

/-- The identity curvature kernel on opaque unit batches and unit
parameters, used to instantiate the operator theorems on concrete
inputs. -/
def idKernel : Unit → List Unit → List ℚ → List ℚ := fun _ _ v => v

/-- A concrete two-parameter operator over the identity kernel with
one-parameter blocks. -/
def pairOp : HessianLinearOperator Unit Unit :=
  { data := [()]
    params := [(), ()]
    dimOf := fun _ => 1
    kernel := idKernel
    batchSizeOf := fun _ => 1
    inBlocks := [1, 1]
    outBlocks := [1, 1]
    dtype := .float32 }

/-! ### Kernel contracts

The curvature kernel is the action of a batch's curvature sub-matrix,
so it preserves the subset dimension, is linear, and (for a Hessian)
is symmetric. -/

/-- The kernel maps vectors over a parameter subset to vectors over the
same subset. -/
def KernelWF (dimOf : P → Nat) (K : β → List P → List ℚ → List ℚ) : Prop :=
  ∀ b ps v, v.length = dimsum dimOf ps → (K b ps v).length = dimsum dimOf ps

/-- The kernel acts linearly on its input vector. -/
def KernelLinear (dimOf : P → Nat) (K : β → List P → List ℚ → List ℚ) : Prop :=
  ∀ b ps (a c : ℚ) u w, u.length = dimsum dimOf ps → w.length = dimsum dimOf ps →
    K b ps (vadd (smul a u) (smul c w)) = vadd (smul a (K b ps u)) (smul c (K b ps w))

/-- The kernel's matrix is symmetric on every parameter subset. -/
def KernelSymmetric (dimOf : P → Nat) (K : β → List P → List ℚ → List ℚ) : Prop :=
  ∀ b ps i j, i < dimsum dimOf ps → j < dimsum dimOf ps →
    vget (K b ps (basisVec (dimsum dimOf ps) j)) i
      = vget (K b ps (basisVec (dimsum dimOf ps) i)) j

/-! ### Pointwise vector lemmas -/

theorem vget_nil (i : Nat) : vget [] i = 0 := rfl

theorem vget_cons_zero (a : ℚ) (l : List ℚ) : vget (a :: l) 0 = a := rfl

theorem vget_cons_succ (a : ℚ) (l : List ℚ) (i : Nat) : vget (a :: l) (i + 1) = vget l i := rfl

theorem vget_of_le : ∀ (l : List ℚ) (i : Nat), l.length ≤ i → vget l i = 0
  | [], _, _ => rfl
  | _ :: l, i + 1, h => vget_of_le l i (Nat.le_of_succ_le_succ h)

theorem vget_eq_getElem : ∀ (l : List ℚ) (i : Nat) (h : i < l.length), vget l i = l[i]
  | _ :: _, 0, _ => rfl
  | _ :: l, i + 1, h => vget_eq_getElem l i (Nat.lt_of_succ_lt_succ h)

theorem vext (u w : List ℚ) (hlen : u.length = w.length)
    (h : ∀ i, i < u.length → vget u i = vget w i) : u = w := by
  apply List.ext_getElem hlen
  intro i h1 h2
  rw [← vget_eq_getElem u i h1, ← vget_eq_getElem w i h2]
  exact h i h1

theorem length_vadd (u w : List ℚ) : (vadd u w).length = min u.length w.length :=
  List.length_zipWith ..

theorem length_smul (a : ℚ) (u : List ℚ) : (smul a u).length = u.length :=
  List.length_map ..

theorem length_zeroVec (n : Nat) : (zeroVec n).length = n :=
  List.length_replicate ..

theorem length_basisVec (d j : Nat) : (basisVec d j).length = d := by
  simp [basisVec]

theorem vget_vadd : ∀ (u w : List ℚ), u.length = w.length →
    ∀ i, vget (vadd u w) i = vget u i + vget w i
  | [], [], _, i => by simp [vadd, vget_nil]
  | a :: u, b :: w, h, 0 => rfl
  | a :: u, b :: w, h, i + 1 =>
      vget_vadd u w (Nat.succ_injective h) i

theorem vget_smul (a : ℚ) : ∀ (u : List ℚ) (i : Nat), vget (smul a u) i = a * vget u i
  | [], i => by simp [smul, vget_nil]
  | b :: u, 0 => rfl
  | b :: u, i + 1 => vget_smul a u i

theorem vget_zeroVec : ∀ (n i : Nat), vget (zeroVec n) i = 0
  | 0, _ => rfl
  | _ + 1, 0 => rfl
  | n + 1, i + 1 => vget_zeroVec n i

theorem vget_mapRange (f : Nat → ℚ) (n i : Nat) (h : i < n) :
    vget ((List.range n).map f) i = f i := by
  have hi : i < ((List.range n).map f).length := by simpa using h
  rw [vget_eq_getElem _ _ hi]
  simp

theorem vget_basisVec (d j i : Nat) (h : i < d) :
    vget (basisVec d j) i = if i = j then 1 else 0 :=
  vget_mapRange _ d i h

theorem vget_basisVec_of_le (d j i : Nat) (h : d ≤ i) : vget (basisVec d j) i = 0 :=
  vget_of_le _ _ (by rw [length_basisVec]; exact h)

theorem vget_append_left : ∀ (u w : List ℚ) (i : Nat), i < u.length →
    vget (u ++ w) i = vget u i
  | _ :: _, _, 0, _ => rfl
  | _ :: u, w, i + 1, h => vget_append_left u w i (Nat.lt_of_succ_lt_succ h)

theorem vget_append_right : ∀ (u w : List ℚ) (i : Nat), u.length ≤ i →
    vget (u ++ w) i = vget w (i - u.length)
  | [], w, i, _ => by simp
  | a :: u, w, i + 1, h => by
      rw [List.cons_append, vget_cons_succ]
      simpa using vget_append_right u w i (Nat.le_of_succ_le_succ h)

theorem vget_drop : ∀ (l : List ℚ) (n i : Nat), vget (l.drop n) i = vget l (n + i)
  | _, 0, i => by rw [List.drop_zero, Nat.zero_add]
  | [], n + 1, i => by simp [vget_nil]
  | a :: l, n + 1, i => by
      rw [List.drop_succ_cons, vget_drop l n i, Nat.succ_add, vget_cons_succ]

theorem vget_take : ∀ (l : List ℚ) (n i : Nat), i < n → vget (l.take n) i = vget l i
  | [], _, _, _ => by rw [List.take_nil]
  | _ :: _, _ + 1, 0, _ => rfl
  | _ :: l, n + 1, i + 1, h => vget_take l n i (Nat.lt_of_succ_lt_succ h)

theorem length_sumVecs (d : Nat) : ∀ (L : List (List ℚ)),
    (∀ x ∈ L, x.length = d) → (sumVecs d L).length = d
  | [], _ => length_zeroVec d
  | x :: L, h => by
      have hx : x.length = d := h x (List.mem_cons_self x L)
      have hL : (sumVecs d L).length = d :=
        length_sumVecs d L (fun y hy => h y (List.mem_cons_of_mem x hy))
      show (vadd x (sumVecs d L)).length = d
      rw [length_vadd, hx, hL, Nat.min_self]

theorem vget_sumVecs (d : Nat) : ∀ (L : List (List ℚ)),
    (∀ x ∈ L, x.length = d) → ∀ i, vget (sumVecs d L) i = (L.map (fun x => vget x i)).sum
  | [], _, i => by simp [sumVecs, vget_zeroVec]
  | x :: L, h, i => by
      have hx : x.length = d := h x (List.mem_cons_self x L)
      have hmem : ∀ y ∈ L, y.length = d := fun y hy => h y (List.mem_cons_of_mem x hy)
      show vget (vadd x (sumVecs d L)) i = _
      rw [vget_vadd x _ (by rw [hx, length_sumVecs d L hmem]),
        vget_sumVecs d L hmem i, List.map_cons, List.sum_cons]

/-! ### Indexed sums -/

theorem sumIdx_succ (n : Nat) (g : Nat → ℚ) : sumIdx (n + 1) g = sumIdx n g + g n := by
  simp [sumIdx, List.range_succ]

theorem sumIdx_shift (n : Nat) (g : Nat → ℚ) :
    sumIdx (n + 1) g = g 0 + sumIdx n (fun i => g (i + 1)) := by
  simp [sumIdx, List.range_succ_eq_map, List.map_map, Function.comp_def,
    Nat.succ_eq_add_one]

theorem sumIdx_congr (n : Nat) (g h' : Nat → ℚ) (hgh : ∀ i, i < n → g i = h' i) :
    sumIdx n g = sumIdx n h' := by
  induction n with
  | zero => rfl
  | succ n ih =>
      rw [sumIdx_succ, sumIdx_succ, ih (fun i hi => hgh i (Nat.lt_succ_of_lt hi)),
        hgh n (Nat.lt_succ_self n)]

theorem sumIdx_const_zero (n : Nat) : sumIdx n (fun _ => (0 : ℚ)) = 0 := by
  induction n with
  | zero => rfl
  | succ n ih => rw [sumIdx_succ, ih, add_zero]

theorem sumIdx_ite (n j : Nat) (h : j < n) (c : Nat → ℚ) :
    sumIdx n (fun i => if i = j then c i else 0) = c j := by
  induction n with
  | zero => exact absurd h (Nat.not_lt_zero j)
  | succ n ih =>
      rcases Nat.lt_succ_iff_lt_or_eq.mp h with hj | hj
      · rw [sumIdx_succ, ih hj]
        have hne : n ≠ j := by omega
        simp [hne]
      · subst hj
        rw [sumIdx_succ,
          sumIdx_congr _ _ (fun _ => (0 : ℚ)) (fun i hi => by simp [Nat.ne_of_lt hi]),
          sumIdx_const_zero]
        simp

theorem sumIdx_add (n : Nat) (g h' : Nat → ℚ) :
    sumIdx n (fun i => g i + h' i) = sumIdx n g + sumIdx n h' := by
  induction n with
  | zero => simp [sumIdx]
  | succ n ih => rw [sumIdx_succ, sumIdx_succ, sumIdx_succ, ih]; ring

theorem sumIdx_mul_left (n : Nat) (a : ℚ) (g : Nat → ℚ) :
    sumIdx n (fun i => a * g i) = a * sumIdx n g := by
  induction n with
  | zero => simp [sumIdx]
  | succ n ih => rw [sumIdx_succ, sumIdx_succ, ih]; ring

theorem dot_eq_sumIdx : ∀ (u w : List ℚ), u.length = w.length →
    dot u w = sumIdx u.length (fun i => vget u i * vget w i)
  | [], [], _ => rfl
  | a :: u, b :: w, h => by
      have ih := dot_eq_sumIdx u w (Nat.succ_injective h)
      show (a * b + (List.zipWith (· * ·) u w).sum) = _
      rw [List.length_cons, sumIdx_shift]
      simp only [vget_cons_zero, vget_cons_succ]
      rw [← ih]
      rfl

/-! ### Chunk partitions -/

theorem length_chunksOf : ∀ (l : List α) (ns : List Nat),
    (chunksOf l ns).length = ns.length
  | _, [] => rfl
  | l, n :: ns => by
      rw [chunksOf, List.length_cons, List.length_cons, length_chunksOf (l.drop n) ns]

theorem flatten_chunksOf : ∀ (l : List α) (ns : List Nat), ns.sum = l.length →
    (chunksOf l ns).flatten = l
  | l, [], h => by
      cases l with
      | nil => rfl
      | cons a l => simp at h
  | l, n :: ns, h => by
      rw [chunksOf, List.flatten_cons,
        flatten_chunksOf (l.drop n) ns (by rw [List.length_drop]; simp at h; omega),
        List.take_append_drop]

theorem getD_chunksOf_length : ∀ (l : List α) (ns : List Nat), ns.sum ≤ l.length →
    ∀ i, i < ns.length → ((chunksOf l ns).getD i []).length = ns.getD i 0
  | l, n :: ns, h, 0, _ => by
      rw [chunksOf]
      show (l.take n).length = n
      rw [List.length_take]
      simp at h
      omega
  | l, n :: ns, h, i + 1, hi => by
      rw [chunksOf]
      show ((chunksOf (l.drop n) ns).getD i []).length = ns.getD i 0
      exact getD_chunksOf_length (l.drop n) ns
        (by rw [List.length_drop]; simp at h; omega) i (Nat.lt_of_succ_lt_succ hi)

theorem getD_map_toNat : ∀ (l : List Int) (i : Nat), i < l.length →
    (l.map Int.toNat).getD i 0 = (l.getD i 0).toNat
  | _ :: _, 0, _ => rfl
  | _ :: l, i + 1, h => getD_map_toNat l i (Nat.lt_of_succ_lt_succ h)

theorem dimsum_append (dimOf : P → Nat) (l1 l2 : List P) :
    dimsum dimOf (l1 ++ l2) = dimsum dimOf l1 + dimsum dimOf l2 := by
  simp [dimsum]

theorem dimsum_take_drop (dimOf : P → Nat) (l : List P) (n : Nat) :
    dimsum dimOf (l.take n) + dimsum dimOf (l.drop n) = dimsum dimOf l := by
  rw [← dimsum_append, List.take_append_drop]

/-- Total flattened dimension covered by a chunk partition. -/
theorem dimsum_flatten (dimOf : P → Nat) : ∀ (C : List (List P)),
    dimsum dimOf C.flatten = (C.map (dimsum dimOf)).sum
  | [] => rfl
  | ps :: C => by
      rw [List.flatten_cons, dimsum_append, List.map_cons, List.sum_cons,
        dimsum_flatten dimOf C]

/-! ### Python slice lemmas -/

theorem pyBound_nonneg (n : Nat) (i : Int) (h : 0 ≤ i) :
    pyBound n i = min i.toNat n := by
  rw [pyBound, if_neg (by omega)]

theorem take_min_length (x : List α) (a : Nat) : x.take (min a x.length) = x.take a := by
  rcases Nat.le_total a x.length with h | h
  · rw [Nat.min_eq_left h]
  · rw [Nat.min_eq_right h, List.take_length, List.take_of_length_le h]

theorem pySlice_zero_nonneg (x : List α) (s : Int) (hs : 0 ≤ s) :
    pySlice x 0 s = x.take s.toNat := by
  rw [pySlice, pyBound_nonneg _ _ le_rfl, pyBound_nonneg _ _ hs]
  simp [take_min_length]

theorem pySlice_shift (x : List α) (s a b : Int) (hs : 0 ≤ s) (ha : 0 ≤ a)
    (hb : 0 ≤ b) : pySlice x (s + a) (s + b) = pySlice (x.drop s.toNat) a b := by
  rw [pySlice, pySlice, pyBound_nonneg _ _ (by omega : (0:Int) ≤ s + a),
    pyBound_nonneg _ _ (by omega : (0:Int) ≤ s + b), pyBound_nonneg _ _ ha,
    pyBound_nonneg _ _ hb, Int.toNat_add hs ha, Int.toNat_add hs hb,
    List.drop_drop, List.length_drop]
  rcases Nat.le_total s.toNat x.length with hle | hle
  · have h1 : min (s.toNat + a.toNat) x.length
        = s.toNat + min a.toNat (x.length - s.toNat) := by omega
    have h2 : min (s.toNat + b.toNat) x.length
        = s.toNat + min b.toNat (x.length - s.toNat) := by omega
    rw [h1, h2, Nat.add_sub_add_left]
  · have h1 : min (s.toNat + a.toNat) x.length = x.length := by omega
    have h2 : min (s.toNat + b.toNat) x.length = x.length := by omega
    rw [h1, h2, Nat.sub_self, List.take_zero,
      List.drop_eq_nil_of_le (by omega : x.length ≤ s.toNat + min a.toNat (x.length - s.toNat)),
      List.take_nil]

theorem sum_take_nonneg (sizes : List Int) (h : ∀ s ∈ sizes, 0 ≤ s) (i : Nat) :
    0 ≤ (sizes.take i).sum :=
  List.sum_nonneg (fun s hs => h s (List.take_subset i sizes hs))

/-- The comprehension of Python slices at the cumulative-sum boundaries
is the chunk partition, for non-negative sizes. -/
theorem slices_eq_chunksOf : ∀ (x : List α) (sizes : List Int),
    (∀ s ∈ sizes, 0 ≤ s) →
    (List.range sizes.length).map
        (fun i => pySlice x ((sizes.take i).sum) ((sizes.take (i + 1)).sum))
      = chunksOf x (sizes.map Int.toNat)
  | _, [], _ => rfl
  | x, s :: ss, h => by
      have hs : 0 ≤ s := h s (List.mem_cons_self s ss)
      have hss : ∀ t ∈ ss, 0 ≤ t := fun t ht => h t (List.mem_cons_of_mem s ht)
      rw [List.length_cons, List.range_succ_eq_map, List.map_cons, List.map_map,
        List.map_cons, chunksOf]
      refine congrArg₂ List.cons ?_ ?_
      · show pySlice x ((List.take 0 (s :: ss)).sum) ((List.take 1 (s :: ss)).sum)
          = x.take s.toNat
        have h1 : (List.take 0 (s :: ss)).sum = 0 := rfl
        have h2 : (List.take 1 (s :: ss)).sum = s := by
          show s + ([] : List Int).sum = s
          simp
        rw [h1, h2, pySlice_zero_nonneg x s hs]
      · rw [← slices_eq_chunksOf (x.drop s.toNat) ss hss]
        refine List.map_congr_left (fun i _ => ?_)
        show pySlice x ((List.take (i + 1) (s :: ss)).sum)
            ((List.take (i + 2) (s :: ss)).sum)
          = pySlice (x.drop s.toNat) ((ss.take i).sum) ((ss.take (i + 1)).sum)
        have h1 : (List.take (i + 1) (s :: ss)).sum = s + (ss.take i).sum := by
          rw [List.take_succ_cons, List.sum_cons]
        have h2 : (List.take (i + 2) (s :: ss)).sum = s + (ss.take (i + 1)).sum := by
          rw [List.take_succ_cons, List.sum_cons]
        rw [h1, h2,
          pySlice_shift x s _ _ hs (sum_take_nonneg ss hss i) (sum_take_nonneg ss hss (i + 1))]

theorem toNat_sum_of_nonneg : ∀ (sizes : List Int), (∀ s ∈ sizes, 0 ≤ s) →
    (((sizes.map Int.toNat).sum : Nat) : Int) = sizes.sum
  | [], _ => rfl
  | s :: ss, h => by
      rw [List.map_cons, List.sum_cons, List.sum_cons, Nat.cast_add,
        toNat_sum_of_nonneg ss (fun t ht => h t (List.mem_cons_of_mem s ht)),
        Int.toNat_of_nonneg (h s (List.mem_cons_self s ss))]

theorem getD_nonneg_of_forall : ∀ (l : List Int) (i : Nat), (∀ s ∈ l, 0 ≤ s) →
    i < l.length → 0 ≤ l.getD i 0
  | s :: ss, 0, h, _ => h s (List.mem_cons_self s ss)
  | s :: ss, i + 1, h, hi =>
      getD_nonneg_of_forall ss i (fun t ht => h t (List.mem_cons_of_mem s ht))
        (Nat.lt_of_succ_lt_succ hi)

/-- On matching totals with non-negative sizes, `split_list` computes
the chunk partition. -/
theorem split_list_eq_chunksOf (x : List α) (sizes : List Int)
    (hpos : ∀ s ∈ sizes, 0 ≤ s) (hsum : (x.length : Int) = sizes.sum) :
    split_list x sizes = .ok (chunksOf x (sizes.map Int.toNat)) := by
  rw [split_list, if_neg (fun hne => hne hsum), slices_eq_chunksOf x sizes hpos]

theorem map_toNat_sum_eq_length (x : List α) (sizes : List Int)
    (hpos : ∀ s ∈ sizes, 0 ≤ s) (hsum : (x.length : Int) = sizes.sum) :
    (sizes.map Int.toNat).sum = x.length := by
  have h := toNat_sum_of_nonneg sizes hpos
  omega

/-! ### Claim theorems for `split_list` -/

/-- Claim C2: whenever the sizes do not sum to the list's length,
`split_list` fails with the `ValueError`-class error whose message
contains both the actual list length and the requested total. -/
theorem split_list_mismatch_reports (x : List α) (sizes : List Int)
    (h : (x.length : Int) ≠ sizes.sum) :
    ∃ msg, split_list x sizes = .error msg
      ∧ ∃ s1 s2 s3 : String,
          msg = s1 ++ toString x.length ++ s2 ++ toString sizes.sum ++ s3 := by
  refine ⟨"List to be split has length " ++ toString x.length
      ++ ", but requested sub-list with a total of " ++ toString sizes.sum ++ " entries.",
    ?_, "List to be split has length ", ", but requested sub-list with a total of ",
    " entries.", rfl⟩
  rw [split_list, if_pos h]

theorem split_list_mismatch_reports_witness :
    (([0, 1] : List Nat).length : Int) ≠ ([1] : List Int).sum
    ∧ ∃ msg, split_list ([0, 1] : List Nat) [1] = .error msg
        ∧ ∃ s1 s2 s3 : String,
            msg = s1 ++ toString ([0, 1] : List Nat).length ++ s2
              ++ toString ([1] : List Int).sum ++ s3 :=
  ⟨by decide, split_list_mismatch_reports [0, 1] [1] (by decide)⟩

/-- Claim C3 (counterexample): with the negative size `-1`, the sizes
`[3, -1]` sum to the length of `[0, 1]`, yet the returned value is not
a partition in which sub-list `i` has exactly `sizes[i]` entries
(sub-list `0` has `2` entries, not `3`). -/
theorem split_list_sized_partition_cex :
    ((([0, 1] : List Nat)).length : Int) = ([3, -1] : List Int).sum
    ∧ split_list ([0, 1] : List Nat) [3, -1] = .ok [[0, 1], []]
    ∧ ¬ IsSizedPartition ([0, 1] : List Nat) [3, -1] [[0, 1], []] := by
  refine ⟨by decide, ?_, by decide⟩
  rfl

/-- Claim C3 (amended with non-negative sizes): for every list `x` and
every list of non-negative sizes summing to `x`'s length, `split_list`
returns the contiguous, order-preserving, non-overlapping partition in
which sub-list `i` has exactly `sizes[i]` consecutive items; in
particular `split_list [a,b,c,d,e] [2,3] = [[a,b],[c,d,e]]`. -/
theorem split_list_sized_partition_nonneg (x : List α) (sizes : List Int)
    (hpos : ∀ s ∈ sizes, 0 ≤ s) (hsum : (x.length : Int) = sizes.sum) :
    split_list x sizes = .ok (chunksOf x (sizes.map Int.toNat))
    ∧ IsSizedPartition x sizes (chunksOf x (sizes.map Int.toNat))
    ∧ ∀ (a b c d e : α), split_list [a, b, c, d, e] [2, 3] = .ok [[a, b], [c, d, e]] := by
  have hN := map_toNat_sum_eq_length x sizes hpos hsum
  refine ⟨split_list_eq_chunksOf x sizes hpos hsum,
    ⟨flatten_chunksOf x _ hN, ?_, ?_⟩, ?_⟩
  · rw [length_chunksOf, List.length_map]
  · intro i hi
    rw [length_chunksOf, List.length_map] at hi
    rw [getD_chunksOf_length x _ (le_of_eq hN) i (by simpa using hi),
      getD_map_toNat sizes i hi,
      Int.toNat_of_nonneg (getD_nonneg_of_forall sizes i hpos hi)]
  · intro a b c d e
    rfl

theorem split_list_sized_partition_nonneg_witness :
    (∀ s ∈ ([2, 3] : List Int), 0 ≤ s)
    ∧ (([0, 1, 2, 3, 4] : List Nat).length : Int) = ([2, 3] : List Int).sum
    ∧ (split_list ([0, 1, 2, 3, 4] : List Nat) [2, 3]
          = .ok (chunksOf ([0, 1, 2, 3, 4] : List Nat) (([2, 3] : List Int).map Int.toNat))
        ∧ IsSizedPartition ([0, 1, 2, 3, 4] : List Nat) [2, 3]
            (chunksOf ([0, 1, 2, 3, 4] : List Nat) (([2, 3] : List Int).map Int.toNat))
        ∧ ∀ (a b c d e : Nat),
            split_list [a, b, c, d, e] [2, 3] = .ok [[a, b], [c, d, e]]) :=
  ⟨by decide, by decide,
    split_list_sized_partition_nonneg [0, 1, 2, 3, 4] [2, 3] (by decide) (by decide)⟩

/-- Claim C10: for non-negative sizes summing to the list's length,
the returned sub-lists concatenate back to the input, there are
exactly as many sub-lists as sizes, zero sizes yield empty sub-lists,
and `split_list [] []` returns `[]`. -/
theorem split_list_partition_props (x : List α) (sizes : List Int)
    (hpos : ∀ s ∈ sizes, 0 ≤ s) (hsum : (x.length : Int) = sizes.sum) :
    ∃ r, split_list x sizes = .ok r ∧ r.flatten = x ∧ r.length = sizes.length
      ∧ (∀ i, i < sizes.length → sizes.getD i 0 = 0 → r.getD i [] = [])
      ∧ split_list ([] : List α) ([] : List Int) = .ok [] := by
  have hN := map_toNat_sum_eq_length x sizes hpos hsum
  refine ⟨chunksOf x (sizes.map Int.toNat), split_list_eq_chunksOf x sizes hpos hsum,
    flatten_chunksOf x _ hN, by rw [length_chunksOf, List.length_map], ?_, rfl⟩
  intro i hi hzero
  have hlen : ((chunksOf x (sizes.map Int.toNat)).getD i []).length = 0 := by
    rw [getD_chunksOf_length x _ (le_of_eq hN) i (by simpa using hi),
      getD_map_toNat sizes i hi, hzero]
    rfl
  exact List.length_eq_zero.mp hlen

theorem split_list_partition_props_witness :
    (∀ s ∈ ([0, 2, 0] : List Int), 0 ≤ s)
    ∧ (([5, 6] : List Nat).length : Int) = ([0, 2, 0] : List Int).sum
    ∧ ∃ r, split_list ([5, 6] : List Nat) [0, 2, 0] = .ok r ∧ r.flatten = [5, 6]
        ∧ r.length = ([0, 2, 0] : List Int).length
        ∧ (∀ i, i < ([0, 2, 0] : List Int).length
            → ([0, 2, 0] : List Int).getD i 0 = 0 → r.getD i [] = [])
        ∧ split_list ([] : List Nat) ([] : List Int) = .ok [] :=
  ⟨by decide, by decide,
    split_list_partition_props [5, 6] [0, 2, 0] (by decide) (by decide)⟩

/-! ### `allclose_report` lemmas -/

theorem allclose_cons (a b rtol atol : ℚ) (t1 t2 : List ℚ) :
    allclose (a :: t1) (b :: t2) rtol atol
      = (isCloseB rtol atol a b && allclose t1 t2 rtol atol) := by
  simp [allclose]

theorem allclose_iff : ∀ (t1 t2 : List ℚ) (rtol atol : ℚ), t1.length = t2.length →
    (allclose t1 t2 rtol atol = true
      ↔ ∀ i, i < t1.length → isCloseB rtol atol (vget t1 i) (vget t2 i) = true)
  | [], [], _, _, _ => by simp [allclose]
  | [], _ :: _, _, _, h => by simp at h
  | _ :: _, [], _, _, h => by simp at h
  | a :: t1, b :: t2, rtol, atol, h => by
      have ih := allclose_iff t1 t2 rtol atol (Nat.succ_injective h)
      rw [allclose_cons, Bool.and_eq_true, ih]
      constructor
      · rintro ⟨hab, hrest⟩ i hi
        cases i with
        | zero => exact hab
        | succ i => exact hrest i (Nat.lt_of_succ_lt_succ hi)
      · intro hall
        exact ⟨hall 0 (Nat.succ_pos _), fun i hi => hall (i + 1) (Nat.succ_lt_succ hi)⟩

/-- Claim C8: `allclose_report` returns `True` exactly when the two
tensors are elementwise close under the given tolerances; when they
are not, the report lists exactly the diverging indices, from the
first on in increasing order, each with the two entries and their
ratio, before the `False` flag is returned. -/
theorem allclose_report_spec (t1 t2 : List ℚ) (rtol atol : ℚ)
    (h : t1.length = t2.length) :
    ((allclose_report t1 t2 rtol atol).1 = true
      ↔ ∀ i, i < t1.length → |vget t1 i - vget t2 i| ≤ atol + rtol * |vget t2 i|)
    ∧ ((allclose_report t1 t2 rtol atol).1 = false →
        (allclose_report t1 t2 rtol atol).2 ≠ []
        ∧ (∀ e : Nat × ℚ × ℚ × ℚ, e ∈ (allclose_report t1 t2 rtol atol).2
            ↔ (e.1 < t1.length
               ∧ ¬ (|vget t1 e.1 - vget t2 e.1| ≤ atol + rtol * |vget t2 e.1|)
               ∧ e.2.1 = vget t1 e.1 ∧ e.2.2.1 = vget t2 e.1
               ∧ e.2.2.2 = vget t1 e.1 / vget t2 e.1))
        ∧ ((allclose_report t1 t2 rtol atol).2.map (fun e => e.1)).Pairwise (· < ·)) := by
  have hfst : (allclose_report t1 t2 rtol atol).1 = allclose t1 t2 rtol atol := rfl
  constructor
  · rw [hfst, allclose_iff t1 t2 rtol atol h]
    exact forall_congr' fun i => imp_congr_right fun _ => by simp [isCloseB]
  · intro hfalse
    rw [hfst] at hfalse
    have h2 : (allclose_report t1 t2 rtol atol).2
        = (notcloseIndices t1 t2 rtol atol).map
            (fun i => (i, vget t1 i, vget t2 i, vget t1 i / vget t2 i)) := by
      show (if allclose t1 t2 rtol atol = true then [] else _) = _
      rw [hfalse]
      simp
    refine ⟨?_, ?_, ?_⟩
    · have hex : ∃ i, i < t1.length
          ∧ ¬ (isCloseB rtol atol (vget t1 i) (vget t2 i) = true) := by
        by_contra hno
        push_neg at hno
        have : allclose t1 t2 rtol atol = true :=
          (allclose_iff t1 t2 rtol atol h).mpr hno
        rw [this] at hfalse
        simp at hfalse
      obtain ⟨i, hilt, hbad⟩ := hex
      have hmem : i ∈ notcloseIndices t1 t2 rtol atol := by
        rw [notcloseIndices, List.mem_filter, List.mem_range]
        exact ⟨hilt, by simpa using hbad⟩
      rw [h2]
      exact List.ne_nil_of_mem (List.mem_map_of_mem _ hmem)
    · intro e
      obtain ⟨i, a, b, c⟩ := e
      rw [h2, List.mem_map]
      dsimp only
      constructor
      · rintro ⟨i', hi', heq⟩
        rw [notcloseIndices, List.mem_filter, List.mem_range] at hi'
        obtain ⟨hilt, hpred⟩ := hi'
        simp only [Prod.mk.injEq] at heq
        obtain ⟨rfl, rfl, rfl, rfl⟩ := heq
        refine ⟨hilt, ?_, rfl, rfl, rfl⟩
        simpa [isCloseB] using hpred
      · rintro ⟨hilt, hbad, rfl, rfl, rfl⟩
        refine ⟨i, ?_, rfl⟩
        rw [notcloseIndices, List.mem_filter, List.mem_range]
        exact ⟨hilt, by simp [isCloseB, hbad]⟩
    · rw [h2, List.map_map]
      have hcomp : ((fun (e : Nat × ℚ × ℚ × ℚ) => e.1)
          ∘ (fun i => (i, vget t1 i, vget t2 i, vget t1 i / vget t2 i))) = id := rfl
      rw [hcomp, List.map_id]
      exact (List.pairwise_lt_range _).filter _

theorem allclose_report_spec_witness :
    ([1, 10] : List ℚ).length = ([1, 1] : List ℚ).length
    ∧ (((allclose_report [1, 10] [1, 1] 0 0).1 = true
        ↔ ∀ i, i < ([1, 10] : List ℚ).length
            → |vget [1, 10] i - vget [1, 1] i| ≤ 0 + 0 * |vget [1, 1] i|)
      ∧ ((allclose_report [1, 10] [1, 1] 0 0).1 = false →
          (allclose_report [1, 10] [1, 1] 0 0).2 ≠ []
          ∧ (∀ e : Nat × ℚ × ℚ × ℚ, e ∈ (allclose_report [1, 10] [1, 1] 0 0).2
              ↔ (e.1 < ([1, 10] : List ℚ).length
                 ∧ ¬ (|vget [1, 10] e.1 - vget [1, 1] e.1| ≤ 0 + 0 * |vget [1, 1] e.1|)
                 ∧ e.2.1 = vget [1, 10] e.1 ∧ e.2.2.1 = vget [1, 1] e.1
                 ∧ e.2.2.2 = vget [1, 10] e.1 / vget [1, 1] e.1))
          ∧ ((allclose_report [1, 10] [1, 1] 0 0).2.map (fun e => e.1)).Pairwise (· < ·))) :=
  ⟨rfl, allclose_report_spec [1, 10] [1, 1] 0 0 rfl⟩

/-! ### Operator lemmas -/

theorem length_sumOverData (data : List β) (f : β → List ℚ) (d : Nat)
    (h : ∀ b ∈ data, (f b).length = d) : (sumOverData data f d).length = d := by
  refine length_sumVecs d _ ?_
  intro x hx
  rw [List.mem_map] at hx
  obtain ⟨b, hb, rfl⟩ := hx
  exact h b hb

theorem chunksOf_single (l : List α) : chunksOf l [l.length] = [l] := by
  rw [chunksOf, chunksOf, List.take_length]

theorem length_matvecBlocks (data : List β) (dimOf : P → Nat)
    (K : β → List P → List ℚ → List ℚ) (hwf : KernelWF dimOf K) :
    ∀ (C : List (List P)) (v : List ℚ), (C.map (dimsum dimOf)).sum ≤ v.length →
    (matvecBlocks data dimOf K C v).length = (C.map (dimsum dimOf)).sum
  | [], _, _ => rfl
  | ps :: C, v, hcov => by
      rw [List.map_cons, List.sum_cons] at hcov ⊢
      rw [matvecBlocks, List.length_append]
      have htake : (v.take (dimsum dimOf ps)).length = dimsum dimOf ps := by
        rw [List.length_take]
        omega
      rw [length_sumOverData data _ _ (fun b _ => hwf b ps _ htake),
        length_matvecBlocks data dimOf K hwf C (v.drop (dimsum dimOf ps))
          (by rw [List.length_drop]; omega)]

/-- Claim C1: on a dataset whose batches have mapping-like inputs,
construction without an explicit batch-size resolver fails with a
`ConfigurationError`, while supplying one makes construction succeed
and multiplication produce a result of the declared dimension. -/
theorem resolver_guard {β P : Type} (data : List β) (kindOf : β → InputKind)
    (params : List P) (dimOf : P → Nat) (K : β → List P → List ℚ → List ℚ)
    (dt : DType) (hne : data ≠ []) (hmap : ∀ b ∈ data, kindOf b = .mappingLike)
    (hwf : KernelWF dimOf K) :
    (∃ msg, construct data kindOf params dimOf K none none none dt
        = .error (.configuration msg))
    ∧ ∀ f : β → Nat, ∃ op,
        construct data kindOf params dimOf K (some f) none none dt = .ok op
        ∧ ∀ v : List ℚ, v.length = dimsum dimOf params
            → (op.matvec v).length = dimsum dimOf params := by
  have hany : data.any (isMappingLike kindOf) = true := by
    rw [List.any_eq_true]
    obtain ⟨b, hb⟩ := List.exists_mem_of_ne_nil data hne
    exact ⟨b, hb, by rw [isMappingLike, hmap b hb]⟩
  constructor
  · refine ⟨"batch size cannot be inferred from a mapping-like input; supply batch_size_fn", ?_⟩
    simp only [construct, Option.getD_none]
    rw [if_neg (by simp), if_neg (by simp), if_pos (by simp [hany])]
  · intro f
    refine ⟨{ data := data
              params := params
              dimOf := dimOf
              kernel := K
              batchSizeOf := fun b => f b
              inBlocks := [params.length]
              outBlocks := [params.length]
              dtype := dt }, ?_, ?_⟩
    · simp only [construct, Option.getD_none]
      rw [if_neg (by simp), if_neg (by simp), if_neg (by simp)]
    · intro v hv
      show (matvecBlocks data dimOf K (chunksOf params [params.length]) v).length = _
      rw [chunksOf_single,
        length_matvecBlocks data dimOf K hwf [params] v (by simp [hv]), List.map_cons,
        List.sum_cons, List.map_nil, List.sum_nil, Nat.add_zero]

theorem resolver_guard_witness :
    (([()] : List Unit) ≠ [])
    ∧ (∀ b ∈ ([()] : List Unit),
        (fun _ : Unit => InputKind.mappingLike) b = InputKind.mappingLike)
    ∧ KernelWF (fun _ : Unit => 1) (fun (_ : Unit) (_ : List Unit) (v : List ℚ) => v)
    ∧ ((∃ msg, construct [()] (fun _ => InputKind.mappingLike) [()] (fun _ => 1)
          (fun _ _ v => v) none none none DType.float32 = .error (.configuration msg))
      ∧ ∀ f : Unit → Nat, ∃ op, construct [()] (fun _ => InputKind.mappingLike) [()]
            (fun _ => 1) (fun _ _ v => v) (some f) none none DType.float32 = .ok op
          ∧ ∀ v : List ℚ, v.length = dimsum (fun _ : Unit => 1) [()]
              → (op.matvec v).length = dimsum (fun _ : Unit => 1) [()]) :=
  ⟨by decide, fun _ _ => rfl, fun _ _ _ h => h,
    resolver_guard [()] (fun _ => InputKind.mappingLike) [()] (fun _ => 1)
      (fun _ _ v => v) DType.float32 (by decide) (fun _ _ => rfl) (fun _ _ _ h => h)⟩

theorem sumOverDataMat_apply : ∀ (data : List β) (f : β → Nat → List ℚ) (d j : Nat),
    sumOverDataMat data f d j = sumOverData data (fun b => f b j) d
  | [], _, _, _ => rfl
  | b :: data, f, d, j => by
      show vadd (f b j) (sumOverDataMat data f d j) = _
      rw [sumOverDataMat_apply data f d j]
      rfl

theorem matmatBlocks_apply (data : List β) (dimOf : P → Nat)
    (K : β → List P → List ℚ → List ℚ) : ∀ (C : List (List P)) (V : Nat → List ℚ)
    (j : Nat), matmatBlocks data dimOf K C V j = matvecBlocks data dimOf K C (V j)
  | [], _, _ => rfl
  | ps :: C, V, j => by
      rw [matmatBlocks, matvecBlocks, sumOverDataMat_apply,
        matmatBlocks_apply data dimOf K C (fun j' => (V j').drop (dimsum dimOf ps)) j]

/-- Claim C4: column `j` of `matmat` on a stack of vectors is exactly
the `matvec` of the `j`-th stacked vector — the same computation, so
in the exact-arithmetic embedding the two are equal. -/
theorem matmat_eq_matvec_columns (op : HessianLinearOperator β P)
    (V : Nat → List ℚ) (j : Nat) : op.matmat V j = op.matvec (V j) :=
  matmatBlocks_apply op.data op.dimOf op.kernel (chunksOf op.params op.inBlocks) V j

/-- Claim C9: the generic-frontend bridge delegates `matvec` through
the native representation — its result is the wrapped operator's
`matvec` of the converted input, converted back — and it exposes the
same shape and dtype as the wrapped operator. -/
theorem scipy_bridge_roundtrip (op : HessianLinearOperator β P)
    (toNative : γ → List ℚ) (toGeneric : List ℚ → γ) (x : γ) :
    (op.to_scipy toNative toGeneric).matvecS x = toGeneric (op.matvec (toNative x))
    ∧ (op.to_scipy toNative toGeneric).shape = op.shape
    ∧ (op.to_scipy toNative toGeneric).dtype = op.dtype :=
  ⟨rfl, rfl, rfl⟩

/-! ### Linearity -/

theorem vget_sumOverData (data : List β) (f : β → List ℚ) (d : Nat)
    (h : ∀ b ∈ data, (f b).length = d) (i : Nat) :
    vget (sumOverData data f d) i = (data.map (fun b => vget (f b) i)).sum := by
  rw [sumOverData, vget_sumVecs d _ ?lens i, List.map_map]
  · rfl
  case lens =>
    intro x hx
    rw [List.mem_map] at hx
    obtain ⟨b, hb, rfl⟩ := hx
    exact h b hb

theorem sum_map_linear (data : List β) (p q : β → ℚ) (a c : ℚ) :
    (data.map (fun b => a * p b + c * q b)).sum
      = a * (data.map p).sum + c * (data.map q).sum := by
  induction data with
  | nil => simp
  | cons b data ih => simp only [List.map_cons, List.sum_cons, ih]; ring

theorem sumOverData_linear (data : List β) (g1 g2 : β → List ℚ) (d : Nat) (a c : ℚ)
    (h1 : ∀ b ∈ data, (g1 b).length = d) (h2 : ∀ b ∈ data, (g2 b).length = d) :
    sumOverData data (fun b => vadd (smul a (g1 b)) (smul c (g2 b))) d
      = vadd (smul a (sumOverData data g1 d)) (smul c (sumOverData data g2 d)) := by
  have hmem : ∀ b ∈ data, (vadd (smul a (g1 b)) (smul c (g2 b))).length = d := by
    intro b hb
    rw [length_vadd, length_smul, length_smul, h1 b hb, h2 b hb, Nat.min_self]
  have hS1 : (sumOverData data g1 d).length = d := length_sumOverData data g1 d h1
  have hS2 : (sumOverData data g2 d).length = d := length_sumOverData data g2 d h2
  apply vext
  · rw [length_sumOverData data _ d hmem, length_vadd, length_smul, length_smul,
      hS1, hS2, Nat.min_self]
  · intro i _
    rw [vget_sumOverData data _ d hmem i,
      vget_vadd _ _ (by rw [length_smul, length_smul, hS1, hS2]) i,
      vget_smul, vget_smul, vget_sumOverData data g1 d h1 i,
      vget_sumOverData data g2 d h2 i, ← sum_map_linear]
    refine congrArg List.sum (List.map_congr_left fun b hb => ?_)
    rw [vget_vadd _ _ (by rw [length_smul, length_smul, h1 b hb, h2 b hb]) i,
      vget_smul, vget_smul]

theorem take_vadd (u w : List ℚ) (n : Nat) :
    (vadd u w).take n = vadd (u.take n) (w.take n) := List.take_zipWith ..

theorem drop_vadd (u w : List ℚ) (n : Nat) :
    (vadd u w).drop n = vadd (u.drop n) (w.drop n) := List.drop_zipWith ..

theorem take_smul (a : ℚ) (u : List ℚ) (n : Nat) :
    (smul a u).take n = smul a (u.take n) := (List.map_take ..).symm

theorem drop_smul (a : ℚ) (u : List ℚ) (n : Nat) :
    (smul a u).drop n = smul a (u.drop n) := (List.map_drop ..).symm

theorem append_vadd (u1 u2 w1 w2 : List ℚ) (h : u1.length = w1.length) :
    vadd (u1 ++ u2) (w1 ++ w2) = vadd u1 w1 ++ vadd u2 w2 :=
  List.zipWith_append _ u1 u2 w1 w2 h

theorem append_smul (a : ℚ) (u1 u2 : List ℚ) :
    smul a (u1 ++ u2) = smul a u1 ++ smul a u2 := List.map_append ..

theorem matvecBlocks_linear (data : List β) (dimOf : P → Nat)
    (K : β → List P → List ℚ → List ℚ) (hwf : KernelWF dimOf K)
    (hlin : KernelLinear dimOf K) : ∀ (C : List (List P)) (u w : List ℚ) (a c : ℚ),
    u.length = w.length → (C.map (dimsum dimOf)).sum ≤ u.length →
    matvecBlocks data dimOf K C (vadd (smul a u) (smul c w))
      = vadd (smul a (matvecBlocks data dimOf K C u))
          (smul c (matvecBlocks data dimOf K C w))
  | [], _, _, _, _, _, _ => rfl
  | ps :: C, u, w, a, c, hl, hcov => by
      rw [List.map_cons, List.sum_cons] at hcov
      have hdu : dimsum dimOf ps ≤ u.length := by omega
      have htu : (u.take (dimsum dimOf ps)).length = dimsum dimOf ps := by
        rw [List.length_take]; omega
      have htw : (w.take (dimsum dimOf ps)).length = dimsum dimOf ps := by
        rw [List.length_take]; omega
      have hrec := matvecBlocks_linear data dimOf K hwf hlin C
        (u.drop (dimsum dimOf ps)) (w.drop (dimsum dimOf ps)) a c
        (by rw [List.length_drop, List.length_drop, hl])
        (by rw [List.length_drop]; omega)
      rw [matvecBlocks, matvecBlocks, matvecBlocks, take_vadd, take_smul, take_smul,
        drop_vadd, drop_smul, drop_smul, hrec]
      have hker : (fun b => K b ps (vadd (smul a (u.take (dimsum dimOf ps)))
            (smul c (w.take (dimsum dimOf ps)))))
          = fun b => vadd (smul a (K b ps (u.take (dimsum dimOf ps))))
              (smul c (K b ps (w.take (dimsum dimOf ps)))) :=
        funext fun b => hlin b ps a c _ _ htu htw
      rw [hker,
        sumOverData_linear data _ _ (dimsum dimOf ps) a c
          (fun b _ => hwf b ps _ htu) (fun b _ => hwf b ps _ htw),
        append_smul, append_smul,
        append_vadd _ _ _ _ (by
          rw [length_smul, length_smul,
            length_sumOverData data _ _ (fun b _ => hwf b ps _ htu),
            length_sumOverData data _ _ (fun b _ => hwf b ps _ htw)])]

theorem chunks_dims_sum (dimOf : P → Nat) (l : List P) (ns : List Nat)
    (h : ns.sum = l.length) :
    ((chunksOf l ns).map (dimsum dimOf)).sum = dimsum dimOf l := by
  rw [← dimsum_flatten dimOf (chunksOf l ns), flatten_chunksOf l ns h]

/-- Claim C7: `matvec` is linear — with a linear curvature kernel, for
all scalars `a`, `c` and input vectors `u`, `w` of the input
dimension, `matvec (a·u + c·w) = a·matvec u + c·matvec w` exactly in
the rational embedding (hence within any tolerance). -/
theorem matvec_linearity (op : HessianLinearOperator β P)
    (hwf : KernelWF op.dimOf op.kernel) (hlin : KernelLinear op.dimOf op.kernel)
    (hblocks : op.inBlocks.sum = op.params.length) (u w : List ℚ) (a c : ℚ)
    (hu : u.length = op.inputDim) (hw : w.length = op.inputDim) :
    op.matvec (vadd (smul a u) (smul c w))
      = vadd (smul a (op.matvec u)) (smul c (op.matvec w)) := by
  have hcov : ((chunksOf op.params op.inBlocks).map (dimsum op.dimOf)).sum
      ≤ u.length := by
    rw [chunks_dims_sum op.dimOf op.params op.inBlocks hblocks, hu]
    exact le_refl _
  exact matvecBlocks_linear op.data op.dimOf op.kernel hwf hlin _ u w a c
    (by rw [hu, hw]) hcov

theorem matvec_linearity_witness :
    KernelWF pairOp.dimOf pairOp.kernel
    ∧ KernelLinear pairOp.dimOf pairOp.kernel
    ∧ pairOp.inBlocks.sum = pairOp.params.length
    ∧ ([2, 3] : List ℚ).length = pairOp.inputDim
    ∧ ([4, 5] : List ℚ).length = pairOp.inputDim
    ∧ pairOp.matvec (vadd (smul 6 [2, 3]) (smul 7 [4, 5]))
        = vadd (smul 6 (pairOp.matvec [2, 3])) (smul 7 (pairOp.matvec [4, 5])) :=
  ⟨fun _ _ _ h => h, fun _ _ _ _ _ _ _ _ => rfl, rfl, rfl, rfl,
    matvec_linearity pairOp (fun _ _ _ h => h) (fun _ _ _ _ _ _ _ _ => rfl) rfl
      [2, 3] [4, 5] 6 7 rfl rfl⟩

/-! ### Block-diagonal structure -/

theorem smul_zero_vadd (u w : List ℚ) (h : u.length = w.length) :
    vadd (smul 0 u) (smul 0 w) = zeroVec u.length := by
  apply vext
  · rw [length_vadd, length_smul, length_smul, h, Nat.min_self, length_zeroVec]
  · intro i _
    rw [vget_vadd _ _ (by rw [length_smul, length_smul, h]) i, vget_smul, vget_smul,
      vget_zeroVec]
    ring

theorem vadd_zero_left (u : List ℚ) (d : Nat) (h : u.length = d) :
    vadd (zeroVec d) u = u := by
  apply vext
  · rw [length_vadd, length_zeroVec, h, Nat.min_self]
  · intro i _
    rw [vget_vadd _ _ (by rw [length_zeroVec, h]) i, vget_zeroVec, zero_add]

theorem kernel_map_zero (dimOf : P → Nat) (K : β → List P → List ℚ → List ℚ)
    (hwf : KernelWF dimOf K) (hlin : KernelLinear dimOf K) (b : β) (ps : List P) :
    K b ps (zeroVec (dimsum dimOf ps)) = zeroVec (dimsum dimOf ps) := by
  have hzlen : (zeroVec (dimsum dimOf ps)).length = dimsum dimOf ps :=
    length_zeroVec _
  have h0 : vadd (smul 0 (zeroVec (dimsum dimOf ps))) (smul 0 (zeroVec (dimsum dimOf ps)))
      = zeroVec (dimsum dimOf ps) := by
    rw [smul_zero_vadd _ _ rfl, length_zeroVec]
  conv_lhs => rw [← h0]
  rw [hlin b ps 0 0 _ _ hzlen hzlen, smul_zero_vadd _ _ rfl, hwf b ps _ hzlen]

theorem sumOverData_zero (data : List β) (d : Nat) :
    sumOverData data (fun _ => zeroVec d) d = zeroVec d := by
  induction data with
  | nil => rfl
  | cons b data ih =>
      show vadd (zeroVec d) (sumOverData data (fun _ => zeroVec d) d) = zeroVec d
      rw [ih, vadd_zero_left _ _ (length_zeroVec d)]

theorem take_full_drop (l : List α) (k : Nat) :
    (l.drop k).take (l.length - k) = l.drop k := by
  have h : (l.drop k).length = l.length - k := List.length_drop ..
  rw [← h, List.take_length]

theorem chunksOf_two (l : List α) (k : Nat) :
    chunksOf l [k, l.length - k] = [l.take k, l.drop k] := by
  rw [chunksOf, chunksOf, chunksOf, take_full_drop]

/-- The two-block operator's `matvec` splits into the two single-block
sub-operators on the split input. -/
theorem matvec_two_block (op : HessianLinearOperator β P) (k : Nat)
    (hin : op.inBlocks = [k, op.params.length - k]) (v : List ℚ) :
    op.matvec v
      = (subOperatorTake op k).matvec (v.take (dimsum op.dimOf (op.params.take k)))
        ++ (subOperatorDrop op k).matvec (v.drop (dimsum op.dimOf (op.params.take k))) := by
  show matvecBlocks op.data op.dimOf op.kernel (chunksOf op.params op.inBlocks) v
    = matvecBlocks op.data op.dimOf op.kernel
        (chunksOf (op.params.take k) [(op.params.take k).length])
        (v.take (dimsum op.dimOf (op.params.take k)))
      ++ matvecBlocks op.data op.dimOf op.kernel
          (chunksOf (op.params.drop k) [(op.params.drop k).length])
          (v.drop (dimsum op.dimOf (op.params.take k)))
  rw [hin, chunksOf_two, chunksOf_single, chunksOf_single]
  simp only [matvecBlocks]
  rw [List.append_nil, List.append_nil, List.take_take, Nat.min_self]

/-- A single-block `matvec` sends the zero vector to the zero vector. -/
theorem matvecBlocks_single_zero (data : List β) (dimOf : P → Nat)
    (K : β → List P → List ℚ → List ℚ) (hwf : KernelWF dimOf K)
    (hlin : KernelLinear dimOf K) (ps : List P) :
    matvecBlocks data dimOf K [ps] (zeroVec (dimsum dimOf ps))
      = zeroVec (dimsum dimOf ps) := by
  simp only [matvecBlocks]
  rw [List.append_nil,
    List.take_of_length_le (le_of_eq (length_zeroVec (dimsum dimOf ps)))]
  have hfun : (fun b => K b ps (zeroVec (dimsum dimOf ps)))
      = fun _ : β => zeroVec (dimsum dimOf ps) :=
    funext fun b => kernel_map_zero dimOf K hwf hlin b ps
  rw [hfun, sumOverData_zero]

theorem take_basisVec_right (D d1 j : Nat) (hD : d1 ≤ D) (hj : d1 ≤ j) :
    (basisVec D j).take d1 = zeroVec d1 := by
  apply vext
  · rw [List.length_take, length_basisVec, length_zeroVec]
    omega
  · intro i hi
    rw [List.length_take, length_basisVec] at hi
    have hid : i < d1 := by omega
    rw [vget_take _ _ _ hid, vget_zeroVec, vget_basisVec D j i (by omega),
      if_neg (by omega)]

theorem drop_basisVec_left (D d1 j : Nat) (hj : j < d1) :
    (basisVec D j).drop d1 = zeroVec (D - d1) := by
  apply vext
  · rw [List.length_drop, length_basisVec, length_zeroVec]
  · intro i hi
    rw [List.length_drop, length_basisVec] at hi
    rw [vget_drop, vget_zeroVec, vget_basisVec D j (d1 + i) (by omega),
      if_neg (by omega)]

/-- Claim C5: for a two-block partition `[k, n-k]`, the blocked
operator's `matmat` equals the direct sum of the two independently
constructed per-block operators applied to the correspondingly split
inputs, and the off-block entries of the blocked operator's matrix are
zero. -/
theorem two_block_block_diagonal (op : HessianLinearOperator β P) (k : Nat)
    (hin : op.inBlocks = [k, op.params.length - k])
    (_hout : op.outBlocks = [k, op.params.length - k])
    (hwf : KernelWF op.dimOf op.kernel) (hlin : KernelLinear op.dimOf op.kernel) :
    (∀ (V : Nat → List ℚ) (j : Nat),
        op.matmat V j
          = (subOperatorTake op k).matmat
              (fun j' => (V j').take (dimsum op.dimOf (op.params.take k))) j
            ++ (subOperatorDrop op k).matmat
              (fun j' => (V j').drop (dimsum op.dimOf (op.params.take k))) j)
    ∧ (∀ i j : Nat, i < dimsum op.dimOf (op.params.take k)
        → dimsum op.dimOf (op.params.take k) ≤ j → j < op.inputDim
        → op.entry i j = 0)
    ∧ (∀ i j : Nat, dimsum op.dimOf (op.params.take k) ≤ i → i < op.inputDim
        → j < dimsum op.dimOf (op.params.take k) → op.entry i j = 0) := by
  have hD : op.inputDim
      = dimsum op.dimOf (op.params.take k) + dimsum op.dimOf (op.params.drop k) :=
    (dimsum_take_drop op.dimOf op.params k).symm
  have hzTake : (subOperatorTake op k).matvec
        (zeroVec (dimsum op.dimOf (op.params.take k)))
      = zeroVec (dimsum op.dimOf (op.params.take k)) := by
    show matvecBlocks op.data op.dimOf op.kernel
        (chunksOf (op.params.take k) [(op.params.take k).length]) (zeroVec _) = _
    rw [chunksOf_single]
    exact matvecBlocks_single_zero op.data op.dimOf op.kernel hwf hlin (op.params.take k)
  have hzDrop : (subOperatorDrop op k).matvec
        (zeroVec (dimsum op.dimOf (op.params.drop k)))
      = zeroVec (dimsum op.dimOf (op.params.drop k)) := by
    show matvecBlocks op.data op.dimOf op.kernel
        (chunksOf (op.params.drop k) [(op.params.drop k).length]) (zeroVec _) = _
    rw [chunksOf_single]
    exact matvecBlocks_single_zero op.data op.dimOf op.kernel hwf hlin (op.params.drop k)
  refine ⟨?_, ?_, ?_⟩
  · intro V j
    have h1 : op.matmat V j = op.matvec (V j) :=
      matmatBlocks_apply op.data op.dimOf op.kernel _ V j
    have h2 : (subOperatorTake op k).matmat
          (fun j' => (V j').take (dimsum op.dimOf (op.params.take k))) j
        = (subOperatorTake op k).matvec
            ((V j).take (dimsum op.dimOf (op.params.take k))) :=
      matmatBlocks_apply op.data op.dimOf op.kernel _ _ j
    have h3 : (subOperatorDrop op k).matmat
          (fun j' => (V j').drop (dimsum op.dimOf (op.params.take k))) j
        = (subOperatorDrop op k).matvec
            ((V j).drop (dimsum op.dimOf (op.params.take k))) :=
      matmatBlocks_apply op.data op.dimOf op.kernel _ _ j
    rw [h1, h2, h3, matvec_two_block op k hin (V j)]
  · intro i j hi hj hjD
    rw [HessianLinearOperator.entry, matvec_two_block op k hin,
      take_basisVec_right op.inputDim _ j (by omega) hj, hzTake,
      vget_append_left _ _ i (by rw [length_zeroVec]; exact hi), vget_zeroVec]
  · intro i j hi hiD hj
    have hlen1 : ((subOperatorTake op k).matvec
          ((basisVec op.inputDim j).take (dimsum op.dimOf (op.params.take k)))).length
        = dimsum op.dimOf (op.params.take k) := by
      show (matvecBlocks op.data op.dimOf op.kernel
          (chunksOf (op.params.take k) [(op.params.take k).length]) _).length = _
      rw [chunksOf_single,
        length_matvecBlocks op.data op.dimOf op.kernel hwf [op.params.take k] _
          (by
            rw [List.map_cons, List.map_nil, List.sum_cons, List.sum_nil,
              Nat.add_zero, List.length_take, length_basisVec]
            omega),
        List.map_cons, List.map_nil, List.sum_cons, List.sum_nil, Nat.add_zero]
    have hd2 : op.inputDim - dimsum op.dimOf (op.params.take k)
        = dimsum op.dimOf (op.params.drop k) := by omega
    rw [HessianLinearOperator.entry, matvec_two_block op k hin,
      drop_basisVec_left op.inputDim _ j hj, hd2, hzDrop,
      vget_append_right _ _ i (by rw [hlen1]; exact hi), hlen1, vget_zeroVec]

theorem two_block_block_diagonal_witness :
    pairOp.inBlocks = [1, pairOp.params.length - 1]
    ∧ pairOp.outBlocks = [1, pairOp.params.length - 1]
    ∧ KernelWF pairOp.dimOf pairOp.kernel
    ∧ KernelLinear pairOp.dimOf pairOp.kernel
    ∧ ((∀ (V : Nat → List ℚ) (j : Nat),
          pairOp.matmat V j
            = (subOperatorTake pairOp 1).matmat
                (fun j' => (V j').take (dimsum pairOp.dimOf (pairOp.params.take 1))) j
              ++ (subOperatorDrop pairOp 1).matmat
                (fun j' => (V j').drop (dimsum pairOp.dimOf (pairOp.params.take 1))) j)
      ∧ (∀ i j : Nat, i < dimsum pairOp.dimOf (pairOp.params.take 1)
          → dimsum pairOp.dimOf (pairOp.params.take 1) ≤ j → j < pairOp.inputDim
          → pairOp.entry i j = 0)
      ∧ (∀ i j : Nat, dimsum pairOp.dimOf (pairOp.params.take 1) ≤ i
          → i < pairOp.inputDim → j < dimsum pairOp.dimOf (pairOp.params.take 1)
          → pairOp.entry i j = 0)) :=
  ⟨rfl, rfl, fun _ _ _ h => h, fun _ _ _ _ _ _ _ _ => rfl,
    two_block_block_diagonal pairOp 1 rfl rfl (fun _ _ _ h => h)
      (fun _ _ _ _ _ _ _ _ => rfl)⟩

/-! ### Adjoint and symmetry -/

theorem smul_one (u : List ℚ) : smul 1 u = u := by
  apply vext
  · rw [length_smul]
  · intro i _
    rw [vget_smul, one_mul]

theorem smul_zero_list (u : List ℚ) : smul 0 u = zeroVec u.length := by
  apply vext
  · rw [length_smul, length_zeroVec]
  · intro i _
    rw [vget_smul, vget_zeroVec, zero_mul]

theorem vadd_zero_right (u : List ℚ) (d : Nat) (h : u.length = d) :
    vadd u (zeroVec d) = u := by
  apply vext
  · rw [length_vadd, length_zeroVec, h, Nat.min_self]
  · intro i _
    rw [vget_vadd _ _ (by rw [length_zeroVec, h]) i, vget_zeroVec, add_zero]

theorem linmap_zero (d : Nat) (f : List ℚ → List ℚ)
    (hwf : ∀ v : List ℚ, v.length = d → (f v).length = d)
    (hlin : ∀ (a c : ℚ) (u w : List ℚ), u.length = d → w.length = d →
      f (vadd (smul a u) (smul c w)) = vadd (smul a (f u)) (smul c (f w))) :
    f (zeroVec d) = zeroVec d := by
  have hzlen : (zeroVec d).length = d := length_zeroVec d
  have h0 : vadd (smul 0 (zeroVec d)) (smul 0 (zeroVec d)) = zeroVec d := by
    rw [smul_zero_vadd _ _ rfl, length_zeroVec]
  conv_lhs => rw [← h0]
  rw [hlin 0 0 _ _ hzlen hzlen, smul_zero_vadd _ _ rfl, hwf _ hzlen]

theorem linmap_add (d : Nat) (f : List ℚ → List ℚ)
    (hlin : ∀ (a c : ℚ) (u w : List ℚ), u.length = d → w.length = d →
      f (vadd (smul a u) (smul c w)) = vadd (smul a (f u)) (smul c (f w)))
    (u w : List ℚ) (hu : u.length = d) (hw : w.length = d) :
    f (vadd u w) = vadd (f u) (f w) := by
  have h := hlin 1 1 u w hu hw
  rw [smul_one, smul_one, smul_one, smul_one] at h
  exact h

theorem linmap_smul (d : Nat) (f : List ℚ → List ℚ)
    (hwf : ∀ v : List ℚ, v.length = d → (f v).length = d)
    (hlin : ∀ (a c : ℚ) (u w : List ℚ), u.length = d → w.length = d →
      f (vadd (smul a u) (smul c w)) = vadd (smul a (f u)) (smul c (f w)))
    (a : ℚ) (u : List ℚ) (hu : u.length = d) :
    f (smul a u) = smul a (f u) := by
  have h := hlin a 0 u u hu hu
  rw [smul_zero_list, hu, vadd_zero_right _ _ (by rw [length_smul, hu]),
    smul_zero_list, hwf u hu, vadd_zero_right _ _ (by rw [length_smul, hwf u hu])] at h
  exact h

theorem linmap_sumVecs (d : Nat) (f : List ℚ → List ℚ)
    (hwf : ∀ v : List ℚ, v.length = d → (f v).length = d)
    (hlin : ∀ (a c : ℚ) (u w : List ℚ), u.length = d → w.length = d →
      f (vadd (smul a u) (smul c w)) = vadd (smul a (f u)) (smul c (f w))) :
    ∀ L : List (List ℚ), (∀ x ∈ L, x.length = d) →
      f (sumVecs d L) = sumVecs d (L.map f)
  | [], _ => linmap_zero d f hwf hlin
  | x :: L, h => by
      have hx : x.length = d := h x (List.mem_cons_self x L)
      have hmem : ∀ y ∈ L, y.length = d := fun y hy => h y (List.mem_cons_of_mem x hy)
      show f (vadd x (sumVecs d L)) = vadd (f x) (sumVecs d (L.map f))
      rw [linmap_add d f hlin x _ hx (length_sumVecs d L hmem),
        linmap_sumVecs d f hwf hlin L hmem]

theorem basis_expansion (d : Nat) (v : List ℚ) (hv : v.length = d) :
    v = sumVecs d ((List.range d).map (fun i => smul (vget v i) (basisVec d i))) := by
  have hmem : ∀ x ∈ (List.range d).map (fun i => smul (vget v i) (basisVec d i)),
      x.length = d := by
    intro x hx
    rw [List.mem_map] at hx
    obtain ⟨i, _, rfl⟩ := hx
    rw [length_smul, length_basisVec]
  apply vext
  · rw [hv, length_sumVecs d _ hmem]
  · intro j hj
    rw [hv] at hj
    rw [vget_sumVecs d _ hmem j, List.map_map]
    have hstep : ∀ i, i < d →
        ((fun x => vget x j) ∘ fun i => smul (vget v i) (basisVec d i)) i
          = if i = j then vget v i else 0 := by
      intro i _
      show vget (smul (vget v i) (basisVec d i)) j = _
      rw [vget_smul, vget_basisVec d i j hj]
      by_cases h : j = i
      · subst h
        rw [if_pos rfl, if_pos rfl, mul_one]
      · rw [if_neg h, if_neg (fun hh => h hh.symm), mul_zero]
    show vget v j
      = sumIdx d ((fun x => vget x j) ∘ fun i => smul (vget v i) (basisVec d i))
    rw [sumIdx_congr d _ _ hstep, sumIdx_ite d j hj]

theorem length_transposeFn (d : Nat) (f : List ℚ → List ℚ) (v : List ℚ) :
    (transposeFn d f v).length = d := by
  rw [transposeFn, List.length_map, List.length_range]

/-- The transpose of a symmetric linear map on dimension-`d` vectors is
the map itself. -/
theorem transposeFn_eq_self (d : Nat) (f : List ℚ → List ℚ)
    (hwf : ∀ v : List ℚ, v.length = d → (f v).length = d)
    (hlin : ∀ (a c : ℚ) (u w : List ℚ), u.length = d → w.length = d →
      f (vadd (smul a u) (smul c w)) = vadd (smul a (f u)) (smul c (f w)))
    (hsym : ∀ i j, i < d → j < d →
      vget (f (basisVec d j)) i = vget (f (basisVec d i)) j)
    (v : List ℚ) (hv : v.length = d) : transposeFn d f v = f v := by
  have hfb : ∀ i : Nat, (f (basisVec d i)).length = d :=
    fun i => hwf _ (length_basisVec d i)
  have hmemB : ∀ x ∈ (List.range d).map (fun i => smul (vget v i) (basisVec d i)),
      x.length = d := by
    intro x hx
    rw [List.mem_map] at hx
    obtain ⟨i, _, rfl⟩ := hx
    rw [length_smul, length_basisVec]
  have hmemF : ∀ x ∈ (List.range d).map (fun i => smul (vget v i) (f (basisVec d i))),
      x.length = d := by
    intro x hx
    rw [List.mem_map] at hx
    obtain ⟨i, _, rfl⟩ := hx
    rw [length_smul, hfb i]
  have hexp : f v
      = sumVecs d ((List.range d).map (fun i => smul (vget v i) (f (basisVec d i)))) := by
    conv_lhs => rw [basis_expansion d v hv]
    rw [linmap_sumVecs d f hwf hlin _ hmemB, List.map_map]
    refine congrArg (sumVecs d) (List.map_congr_left fun i _ => ?_)
    show f (smul (vget v i) (basisVec d i)) = smul (vget v i) (f (basisVec d i))
    exact linmap_smul d f hwf hlin _ _ (length_basisVec d i)
  apply vext
  · rw [length_transposeFn, hwf v hv]
  · intro j hj
    have hjd : j < d := by rwa [length_transposeFn] at hj
    have hLHS : vget (transposeFn d f v) j
        = sumIdx d (fun i => vget (f (basisVec d j)) i * vget v i) := by
      rw [show vget (transposeFn d f v) j = dot (f (basisVec d j)) v from
          vget_mapRange _ d j hjd,
        dot_eq_sumIdx _ v (by rw [hfb j, hv]), hfb j]
    have hRHS : vget (f v) j
        = sumIdx d (fun i => vget v i * vget (f (basisVec d i)) j) := by
      rw [hexp, vget_sumVecs d _ hmemF j, List.map_map]
      show sumIdx d ((fun x => vget x j) ∘ fun i => smul (vget v i) (f (basisVec d i)))
        = _
      refine sumIdx_congr d _ _ fun i _ => ?_
      show vget (smul (vget v i) (f (basisVec d i))) j = _
      rw [vget_smul]
    rw [hLHS, hRHS]
    refine sumIdx_congr d _ _ fun i hi => ?_
    rw [hsym i j hi hjd]
    exact mul_comm _ _

theorem matvecBlocks_congr_kernel (data : List β) (dimOf : P → Nat)
    (K1 K2 : β → List P → List ℚ → List ℚ)
    (hK : ∀ (b : β) (ps : List P) (w : List ℚ), w.length = dimsum dimOf ps →
      K1 b ps w = K2 b ps w) : ∀ (C : List (List P)) (v : List ℚ),
    (C.map (dimsum dimOf)).sum ≤ v.length →
    matvecBlocks data dimOf K1 C v = matvecBlocks data dimOf K2 C v
  | [], _, _ => rfl
  | ps :: C, v, hcov => by
      rw [List.map_cons, List.sum_cons] at hcov
      have htake : (v.take (dimsum dimOf ps)).length = dimsum dimOf ps := by
        rw [List.length_take]; omega
      have hfun : (fun b => K1 b ps (v.take (dimsum dimOf ps)))
          = fun b => K2 b ps (v.take (dimsum dimOf ps)) :=
        funext fun b => hK b ps _ htake
      rw [matvecBlocks, matvecBlocks, hfun,
        matvecBlocks_congr_kernel data dimOf K1 K2 hK C (v.drop (dimsum dimOf ps))
          (by rw [List.length_drop]; omega)]

/-- Claim C6: for a symmetric curvature kernel and equal input/output
blocking, the adjoint's `matvec` coincides exactly with the
original's, and the adjoint is the swapped-blocks view over the very
same data stream, parameters and kernel state. -/
theorem adjoint_symmetric_matches (op : HessianLinearOperator β P)
    (hblocks : op.inBlocks = op.outBlocks) (hsum : op.inBlocks.sum = op.params.length)
    (hwf : KernelWF op.dimOf op.kernel) (hlin : KernelLinear op.dimOf op.kernel)
    (hsym : KernelSymmetric op.dimOf op.kernel) (v : List ℚ)
    (hv : v.length = op.inputDim) :
    op.adjoint.matvec v = op.matvec v
    ∧ op.adjoint.data = op.data ∧ op.adjoint.params = op.params
    ∧ op.adjoint.inBlocks = op.outBlocks ∧ op.adjoint.outBlocks = op.inBlocks := by
  refine ⟨?_, rfl, rfl, rfl, rfl⟩
  show matvecBlocks op.data op.dimOf
      (fun b ps => transposeFn (dimsum op.dimOf ps) (op.kernel b ps))
      (chunksOf op.params op.outBlocks) v
    = matvecBlocks op.data op.dimOf op.kernel (chunksOf op.params op.inBlocks) v
  rw [← hblocks]
  refine matvecBlocks_congr_kernel op.data op.dimOf _ op.kernel ?_ _ v ?_
  · intro b ps w hw
    exact transposeFn_eq_self (dimsum op.dimOf ps) (op.kernel b ps) (hwf b ps)
      (fun a c u u' hu hu' => hlin b ps a c u u' hu hu')
      (fun i j hi hj => hsym b ps i j hi hj) w hw
  · rw [chunks_dims_sum op.dimOf op.params op.inBlocks hsum, hv]
    exact le_refl _

theorem vget_basisVec_symm (d i j : Nat) (hi : i < d) (hj : j < d) :
    vget (basisVec d j) i = vget (basisVec d i) j := by
  rw [vget_basisVec d j i hi, vget_basisVec d i j hj]
  by_cases h : i = j
  · subst h
    rfl
  · rw [if_neg h, if_neg (fun hh => h hh.symm)]

theorem adjoint_symmetric_matches_witness :
    pairOp.inBlocks = pairOp.outBlocks
    ∧ pairOp.inBlocks.sum = pairOp.params.length
    ∧ KernelWF pairOp.dimOf pairOp.kernel
    ∧ KernelLinear pairOp.dimOf pairOp.kernel
    ∧ KernelSymmetric pairOp.dimOf pairOp.kernel
    ∧ ([8, 9] : List ℚ).length = pairOp.inputDim
    ∧ (pairOp.adjoint.matvec [8, 9] = pairOp.matvec [8, 9]
      ∧ pairOp.adjoint.data = pairOp.data ∧ pairOp.adjoint.params = pairOp.params
      ∧ pairOp.adjoint.inBlocks = pairOp.outBlocks
      ∧ pairOp.adjoint.outBlocks = pairOp.inBlocks) :=
  ⟨rfl, rfl, fun _ _ _ h => h, fun _ _ _ _ _ _ _ _ => rfl,
    fun _ _ i j hi hj => vget_basisVec_symm _ i j hi hj, rfl,
    adjoint_symmetric_matches pairOp rfl rfl (fun _ _ _ h => h)
      (fun _ _ _ _ _ _ _ _ => rfl)
      (fun _ _ i j hi hj => vget_basisVec_symm _ i j hi hj) [8, 9] rfl⟩

end Curvlinops
